import Mathlib

/-!
Verification of the segment assembler and subtitle formatter of
`whisper-diarize-rs` (`src/transcribe.rs`, `src/formatting.rs`).

Modelling conventions:
* Rust `f64`/`f32` values (timestamps, probabilities, scores) are modelled as `ℚ`.
  Every claim settled here concerns control flow, ordering and text manipulation,
  none of which depends on binary floating-point rounding.
* Rust `String` is modelled as `List Char` (`Str`).  The byte-reversed scan in
  `split_trailing_punct` only ever matches single-byte (ASCII) characters, because
  in UTF-8 no byte of a multi-byte character equals an ASCII punctuation byte, and
  the scan stops at the first non-matching byte; hence the char-level scan with the
  ASCII subset of the Rust punctuation set is an exact model, and the byte slice
  `&s[..cut]` always cuts at a character boundary.
* `String::len` counts bytes in Rust; character counts are used here.  No settled
  claim distinguishes the two.
* The Rust `.unwrap()` of `out.pop()` in `clamp_and_merge_tiny_words` (a potential
  panic site) is modelled by `Option`: `none` means the Rust code would panic.
* External capabilities (the whisper decoder, the speaker-embedding subsystem, the
  silence oracle) are inputs of the model, as the spec treats them.
-/

namespace WhisperSpec

abbrev Str := List Char

/-- Unicode `White_Space` code points, the set used by Rust `char::is_whitespace`. -/
def rustIsWs (c : Char) : Bool :=
  [0x09, 0x0A, 0x0B, 0x0C, 0x0D, 0x20, 0x85, 0xA0, 0x1680,
   0x2000, 0x2001, 0x2002, 0x2003, 0x2004, 0x2005, 0x2006, 0x2007,
   0x2008, 0x2009, 0x200A, 0x2028, 0x2029, 0x202F, 0x205F, 0x3000].contains c.toNat

/-- Rust `str::trim_start`. -/
def trimStartWs (s : Str) : Str := s.dropWhile rustIsWs

/-- Rust `str::trim_end`. -/
def trimEndWs (s : Str) : Str := (s.reverse.dropWhile rustIsWs).reverse

/-- Rust `str::trim`. -/
def rustTrim (s : Str) : Str := trimEndWs (trimStartWs s)

/-- Rust `s.trim_matches(c)` (strip a given char from both ends). -/
def trimMatches (c : Char) (s : Str) : Str :=
  ((s.dropWhile (· = c)).reverse.dropWhile (· = c)).reverse

/-- Space-joined rendering, as produced by the `push(' ')`-between-items loops. -/
def joinSp : List Str → Str
  | [] => []
  | [s] => s
  | s :: t :: rest => s ++ ' ' :: joinSp (t :: rest)

/-- Model of whisper's centisecond-to-second conversion `cs_to_s` (`utils.rs`). -/
def cs_to_s (cs : Int) : ℚ := (cs : ℚ) * (1 / 100)

/-- Output word of the reconstructor (`types.rs` `WordTimestamp`).
The Rust field `end` is called `stop` here (`end` is a Lean keyword). -/
structure WordTimestamp where
  word : Str
  start : ℚ
  stop : ℚ
  probability : Option ℚ
deriving Repr, DecidableEq

/-- Transcript segment (`types.rs` `Segment`). -/
structure Segment where
  start : ℚ
  stop : ℚ
  text : Str
  speaker_id : Option Str
  words : Option (List WordTimestamp)
deriving Repr, DecidableEq

/-- Finished subtitle cue (`formatting.rs` `SubtitleCue`). -/
structure SubtitleCue where
  start : ℚ
  stop : ℚ
  lines : List Str
  words : List WordTimestamp
  speaker_id : Option Str
deriving Repr, DecidableEq

/-- Internal working token of the formatter (`formatting.rs` `Tok`). -/
structure Tok where
  word : Str
  punc : Str
  start : ℚ
  stop : ℚ
  prob : Option ℚ
  speaker : Option Str
deriving Repr, DecidableEq

instance : Inhabited Tok := ⟨⟨[], [], 0, 0, none, none⟩⟩

/-- Formatter configuration (`formatting.rs` `PostProcessConfig`). -/
structure PostProcessConfig where
  max_chars_per_line : Nat
  max_lines : Nat
  cps_cap : ℚ
  split_gap_sec : ℚ
  comma_min_chars_before_allow : Nat
  min_word_dur : ℚ
  min_sub_dur : ℚ
  max_sub_dur : ℚ
  soft_max_words_per_line : Nat
deriving Repr, DecidableEq

/-- The `Default` instance of `PostProcessConfig`. -/
def defaultConfig : PostProcessConfig :=
  { max_chars_per_line := 38, max_lines := 1, cps_cap := 17, split_gap_sec := 1/2,
    comma_min_chars_before_allow := 55, min_word_dur := 1/10, min_sub_dur := 1,
    max_sub_dur := 6, soft_max_words_per_line := 0 }

/-- The silence-oracle capability `SilenceOracle::is_silence`. -/
abbrev SilenceOracle := ℚ → ℚ → Bool

/-- ASCII punctuation characters reachable by the byte-level scan of
`split_trailing_punct` (see the header note on UTF-8). -/
def isPuncByte (c : Char) : Bool :=
  ['.', '!', '?', ',', ';', ':', ')', ']', '}', '"'].contains c

/-- Model of `split_trailing_punct`: split a word into its lexical core and its
trailing punctuation run. -/
def split_trailing_punct (s : Str) : Str × Str :=
  ((s.reverse.dropWhile isPuncByte).reverse, (s.reverse.takeWhile isPuncByte).reverse)

/-- Model of `is_terminal_punct`. -/
def is_terminal_punct (p : Str) : Bool :=
  p = ['.'] || p = ['!'] || p = ['?'] || p = ['…'] || p = ['。'] || p = ['！'] || p = ['？']

/-- Model of `is_comma_like`. -/
def is_comma_like (p : Str) : Bool :=
  p = [','] || p = ['，'] || p = ['、'] || p = [';']

/-- Update index `i` of a token list in place (no-op out of range, like the
in-range Rust index assignments). -/
def updAt (l : List Tok) (i : Nat) (f : Tok → Tok) : List Tok :=
  match l[i]? with
  | some t => l.set i (f t)
  | none => l

/-- One iteration of the first (boundary-clamping) pass of
`clamp_and_merge_tiny_words`, at index `i` of the current array. -/
def clampStep (cfg : PostProcessConfig) (oracle : SilenceOracle)
    (a : List Tok) (i : Nat) : List Tok :=
  let a := updAt a i (fun t =>
    let dur := t.stop - t.start
    if dur < cfg.min_word_dur then
      let grow := (cfg.min_word_dur - dur) / 2
      { t with start := t.start - grow, stop := t.stop + grow }
    else t)
  let a := if 1 ≤ i then
      match a[i-1]?, a[i]? with
      | some p, some t =>
        let mid := (1/2 : ℚ) * (p.stop + t.start)
        let a := a.set (i-1) { p with stop := min p.stop mid }
        a.set i { t with start := max t.start mid }
      | _, _ => a
    else a
  let a := if i + 1 < a.length then
      match a[i]?, a[i+1]? with
      | some t, some n =>
        let mid := (1/2 : ℚ) * (t.stop + n.start)
        let a := a.set i { t with stop := min t.stop mid }
        a.set (i+1) { n with start := max n.start mid }
      | _, _ => a
    else a
  updAt a i (fun t =>
    let pad : ℚ := 1/50
    let t := if oracle (t.start - pad) t.start then { t with start := t.start + pad } else t
    if oracle t.stop (t.stop + pad) then { t with stop := t.stop - pad } else t)

/-- The whole first pass: `for i in 0..toks.len()`. -/
def clampPass (cfg : PostProcessConfig) (oracle : SilenceOracle) (toks : List Tok) : List Tok :=
  (List.range toks.length).foldl (clampStep cfg oracle) toks

/-- Model of `join_tokens`. -/
def join_tokens (a b : Tok) : Str × Str :=
  (a.word ++ a.punc ++ (if !a.word.isEmpty && !b.word.isEmpty then [' '] else []) ++ b.word,
   b.punc)

/-- Second pass of `clamp_and_merge_tiny_words` (tiny-word merging).  `i` is the
current index into the original vector; `none` models the Rust panics
(`out.pop().unwrap()` on an empty `out`, out-of-bounds `toks[i + 1]`). -/
def mergeLoop (cfg : PostProcessConfig) (out : List Tok) (i : Nat) :
    List Tok → Option (List Tok)
  | [] => some out
  | t :: rest =>
    let dur := t.stop - t.start
    if dur < cfg.min_word_dur ∧ rest ≠ [] then
      match rest with
      | n :: rest2 =>
        let (w, p) := join_tokens t n
        let merged := { n with word := w, punc := p, start := min t.start n.start }
        mergeLoop cfg (out ++ [merged]) (i + 2) rest2
      | [] => none
    else if dur < cfg.min_word_dur ∧ 0 < i then
      match out.getLast? with
      | some prev =>
        let (w, p) := join_tokens prev t
        let prev2 := { prev with word := w, punc := p, stop := max prev.stop t.stop }
        mergeLoop cfg (out.dropLast ++ [prev2]) (i + 1) rest
      | none => none
    else
      mergeLoop cfg (out ++ [t]) (i + 1) rest

/-- Model of `clamp_and_merge_tiny_words`. -/
def clamp_and_merge_tiny_words (cfg : PostProcessConfig) (oracle : SilenceOracle)
    (toks : List Tok) : Option (List Tok) :=
  if toks.isEmpty then some toks
  else mergeLoop cfg [] 0 (clampPass cfg oracle toks)

/-- Grouping loop of `split_into_groups`. -/
def groupLoop (cfg : PostProcessConfig) (cur : List Tok) : List Tok → List (List Tok)
  | [] => if cur.isEmpty then [] else [cur]
  | t :: rest =>
    let cur2 := cur ++ [t]
    let strongP := is_terminal_punct t.punc
    let longGap := match rest.head? with
      | some n => decide (cfg.split_gap_sec ≤ n.start - t.stop)
      | none => false
    if strongP || longGap then
      (if cur2.isEmpty then groupLoop cfg [] rest else cur2 :: groupLoop cfg [] rest)
    else groupLoop cfg cur2 rest

/-- Model of `split_into_groups`. -/
def split_into_groups (toks : List Tok) (cfg : PostProcessConfig) : List (List Tok) :=
  groupLoop cfg [] toks

/-- Model of `render_token`. -/
def render_token (t : Tok) : Str := t.word ++ t.punc

/-- Model of `render_slice`. -/
def render_slice (slice : List Tok) : Str := joinSp (slice.map render_token)

/-- Model of `slice_chars`. -/
def slice_chars (slice : List Tok) : Nat :=
  (slice.map (fun t => t.word.length + t.punc.length)).sum + (slice.length - 1)

/-- Model of `slice_stats`. -/
def slice_stats (slice : List Tok) : ℚ × ℚ × Nat :=
  let t0 := (slice.head?).elim 0 (·.start)
  let t1 := (slice.getLast?).elim t0 (·.stop)
  (t0, t1, slice_chars slice)

/-- Model of `length_penalty`. -/
def length_penalty (chars cap : Nat) : ℚ :=
  if chars ≤ cap then 0 else (2/100) * ((chars - cap : Nat) : ℚ) ^ 2

/-- Model of `soft_cap_penalty`. -/
def soft_cap_penalty (v cap : Nat) : ℚ :=
  if v ≤ cap then 0 else (1/100) * ((v - cap : Nat) : ℚ) ^ 2

/-- First whitespace-separated word of a string: `s.split_whitespace().next()`. -/
def firstWsWord (s : Str) : Option Str :=
  let t := s.dropWhile rustIsWs
  if t.isEmpty then none else some (t.takeWhile (fun c => !rustIsWs c))

/-- Last whitespace-separated word of a string: `s.split_whitespace().last()`. -/
def lastWsWord (s : Str) : Option Str := (firstWsWord s.reverse).map (·.reverse)

/-- The closed list of short function words of the Rust syntax-penalty heuristic. -/
def shortFunctWords : List Str :=
  [['i'], ['t','o'], ['a'], ['t','h','e'], ['a','n','d'], ['o','r'], ['o','f'],
   ['i','n'], ['o','n'], ['f','o','r'], ['w','i','t','h'], ['a','t']]

/-- Model of the Rust syntax-penalty scoring function of `split_into_lines`
(renamed: the word-list heuristic over the left/right rendered lines). -/
def funct_word_penalty (left right : Str) : ℚ :=
  let startsBad := (firstWsWord right).elim false
    (fun w => shortFunctWords.contains (w.map Char.toLower))
  let endsBad := (lastWsWord left).elim false
    (fun w => shortFunctWords.contains (w.map Char.toLower))
  (if startsBad then 3/10 else 0) + (if endsBad then 1/4 else 0)

/-- In-range indexing shorthand for token slices; all uses below are at indices
produced in range `1 .. slice.length - 1`. -/
def tokAt (slice : List Tok) (k : Nat) : Tok := slice.getD k default

/-- Candidate filter of `split_into_lines` for a split index `k`. -/
def candOk (slice : List Tok) (cfg : PostProcessConfig) (k : Nat) : Bool :=
  let leftTerm := (tokAt slice (k - 1)).punc
  let isTerm := is_terminal_punct leftTerm
  let gap := (tokAt slice k).start - (tokAt slice (k - 1)).stop
  let longGap := decide (cfg.split_gap_sec ≤ gap)
  let commaOk := is_comma_like leftTerm &&
    decide (cfg.comma_min_chars_before_allow ≤ slice_chars slice)
  isTerm || longGap || commaOk || decide (k % 2 = 0) || decide (k = slice.length / 2)

/-- Score of one candidate split index of `split_into_lines`. -/
def candScore (slice : List Tok) (cfg : PostProcessConfig) (k : Nat) : ℚ :=
  let lchars := slice_chars (slice.take k)
  let rchars := slice_chars (slice.drop k)
  let ltext := render_slice (slice.take k)
  let rtext := render_slice (slice.drop k)
  let lwords := k
  let rwords := slice.length - k
  let lenPen := length_penalty lchars cfg.max_chars_per_line
    + length_penalty rchars cfg.max_chars_per_line
  let wordPen := if 0 < cfg.soft_max_words_per_line then
      soft_cap_penalty lwords cfg.soft_max_words_per_line
        + soft_cap_penalty rwords cfg.soft_max_words_per_line
    else 0
  let synPen := funct_word_penalty ltext rtext
  let leftTerm := (tokAt slice (k - 1)).punc
  let isTerm := is_terminal_punct leftTerm
  let isComma := is_comma_like leftTerm
  let gap := (tokAt slice k).start - (tokAt slice (k - 1)).stop
  let longGap := decide (cfg.split_gap_sec ≤ gap)
  let bonus := (if isTerm then -(6/10 : ℚ) else 0) + (if longGap then -(3/10 : ℚ) else 0)
    + (if isComma then (15/100 : ℚ) else 0)
  lenPen + wordPen + synPen + bonus

/-- Best-candidate fold of `split_into_lines`.  The accumulator's `none` score
stands for the `f64::INFINITY` initial best score, which every real score
strictly undercuts. -/
def bestCand (slice : List Tok) (cfg : PostProcessConfig) (cands : List Nat) : Nat :=
  (cands.foldl (fun acc k =>
    let sc := candScore slice cfg k
    match acc.2 with
    | none => (k, some sc)
    | some b => if sc < b then (k, some sc) else acc) (cands.headD 0, none)).1

/-- Model of `split_into_lines`. -/
def split_into_lines (slice : List Tok) (cfg : PostProcessConfig) : List Str :=
  if slice.isEmpty then [[]]
  else if cfg.max_lines ≤ 1 then [render_slice slice]
  else
    let cands := (List.range' 1 (slice.length - 1)).filter (candOk slice cfg)
    if cands.isEmpty then [render_slice slice]
    else
      let k := bestCand slice cfg cands
      [render_slice (slice.take k), render_slice (slice.drop k)]

/-- The slice `group[s..j]` of the Rust code. -/
def sliceTo (g : List Tok) (s j : Nat) : List Tok := (g.drop s).take (j - s)

/-- Loop condition `next_ok` of `build_cue`'s window-growing loop. -/
def next_ok (g : List Tok) (s : Nat) (cfg : PostProcessConfig) (j : Nat) : Bool :=
  decide (j < g.length) &&
    (let st := slice_stats (sliceTo g s j)
     let dur := max (st.2.1 - st.1) (1/1000)
     let cps := (st.2.2 : ℚ) / dur
     decide (dur < cfg.max_sub_dur) &&
       (decide (cps ≤ cfg.cps_cap) ||
         decide (st.2.2 < cfg.max_chars_per_line * cfg.max_lines)))

/-- Window-growing loop of `build_cue`. -/
def growWindow (g : List Tok) (startIdx : Nat) (cfg : PostProcessConfig) (j : Nat) : Nat :=
  if h : next_ok g startIdx cfg j then growWindow g startIdx cfg (j + 1) else j
termination_by g.length - j
decreasing_by
  have hj : j < g.length := by
    unfold next_ok at h
    simp only [Bool.and_eq_true, decide_eq_true_eq] at h
    exact h.1
  omega

/-- Model of `build_cue`. -/
def build_cue (g : List Tok) (startIdx : Nat) (cfg : PostProcessConfig) :
    Nat × SubtitleCue :=
  let j := growWindow g startIdx cfg (startIdx + 1)
  let sl := sliceTo g startIdx j
  let st := slice_stats sl
  let lines := split_into_lines sl cfg
  let speaker := sl.head?.bind (·.speaker)
  let words := sl.map (fun t => WordTimestamp.mk (render_token t) t.start t.stop t.prob)
  (j, ⟨max st.1 0, st.2.1, lines, words, speaker⟩)

/-- Per-group cue emission loop (`while i < g.len()` in `process_segments`). -/
def cueLoop (cfg : PostProcessConfig) (g : List Tok) (i : Nat) : List SubtitleCue :=
  if h : i < g.length then
    let r := build_cue g i cfg
    r.2 :: cueLoop cfg g r.1
  else []
termination_by g.length - i
decreasing_by
  have hle : ∀ n j, g.length - j ≤ n → j ≤ growWindow g i cfg j := by
    intro n
    induction n with
    | zero =>
      intro j hj
      rw [growWindow]
      have hnot : ¬ next_ok g i cfg j = true := fun hc => by
        have hlt : j < g.length := by
          unfold next_ok at hc
          simp only [Bool.and_eq_true, decide_eq_true_eq] at hc
          exact hc.1
        omega
      simp [hnot]
    | succ n ih =>
      intro j hj
      rw [growWindow]
      split
      · next hc =>
        have hlt : j < g.length := by
          unfold next_ok at hc
          simp only [Bool.and_eq_true, decide_eq_true_eq] at hc
          exact hc.1
        exact Nat.le_trans (Nat.le_succ j) (ih (j + 1) (by omega))
      · exact Nat.le_refl j
  have hfst : i + 1 ≤ (build_cue g i cfg).1 := by
    simp only [build_cue]
    exact hle (g.length - (i + 1)) (i + 1) (Nat.le_refl _)
  omega

/-- Flattening stage of `process_segments` (step 1): gather all words, with the
whole-segment fallback for word-less segments. -/
def flattenSegs (segments : List Segment) : List (Option Str × WordTimestamp) :=
  (segments.map (fun seg =>
    match seg.words with
    | some ws => ws.map (fun w => (seg.speaker_id, w))
    | none =>
      if (rustTrim seg.text).isEmpty then []
      else [(seg.speaker_id, ⟨seg.text, seg.start, seg.stop, none⟩)])).flatten

/-- Model of `process_segments`.  The result is `none` exactly when the Rust code
would panic (see `mergeLoop`); `process_total` below proves that never happens. -/
def process_segments (segments : List Segment) (cfg : PostProcessConfig)
    (oracle? : Option SilenceOracle) : Option (List SubtitleCue) :=
  let oracle := oracle?.getD (fun _ _ => false)
  let all := flattenSegs segments
  if all.isEmpty then some []
  else
    let toks := all.map (fun x =>
      let cp := split_trailing_punct x.2.word
      Tok.mk cp.1 cp.2 x.2.start x.2.stop x.2.probability x.1)
    (clamp_and_merge_tiny_words cfg oracle toks).map (fun toks2 =>
      ((split_into_groups toks2 cfg).map (fun g => cueLoop cfg g 0)).flatten)

/-- Model of `is_whole_control_token` (`transcribe.rs`): `s` is nothing but a
control marker such as `[_BEG_]` or `[_TT_320]`. -/
def is_whole_control_token (s : Str) : Bool :=
  let t := rustTrim (trimMatches (Char.ofNat 0) s)
  decide (t.take 2 = ['[', '_']) && decide (t.getLast? = some ']') &&
    (let inner := (t.drop 2).dropLast
     !inner.isEmpty && inner.all (fun c => c.isUpper || c.isDigit || c = '_'))

/-- Model of `strip_embedded_control_markers`: remove control markers embedded
inside otherwise-printable tokens. -/
def strip_embedded (s : Str) : Str :=
  match s with
  | [] => []
  | '[' :: '_' :: rest =>
    let pre := rest.takeWhile (· ≠ ']')
    if pre.length < rest.length then
      if is_whole_control_token ('[' :: '_' :: (pre ++ [']'])) then
        strip_embedded (rest.drop (pre.length + 1))
      else '[' :: strip_embedded ('_' :: rest)
    else '[' :: strip_embedded ('_' :: rest)
  | c :: rest => c :: strip_embedded rest
termination_by s.length
decreasing_by
  · simp only [List.length_drop, List.length_cons]
    omega
  · simp only [List.length_cons]
    omega
  · simp only [List.length_cons]
    omega
  · simp only [List.length_cons]
    omega

/-- Raw whisper token data consumed by `get_word_timestamps`: UTF-8 text, token
probability `p`, coarse centisecond bounds `t0`/`t1`, and the DTW timestamp
`t_dtw` (negative when DTW alignment was not computed). -/
structure RawToken where
  text : Str
  p : ℚ
  t0 : Int
  t1 : Int
  t_dtw : Int
deriving Repr, DecidableEq

/-- Surviving token of the reconstructor (the local `Tok` of
`get_word_timestamps`), with times already in seconds. -/
structure WTok where
  text : Str
  p : ℚ
  t0 : ℚ
  t1 : ℚ
  anchor : Option ℚ
deriving Repr, DecidableEq

/-- Conversion of one raw token into a surviving `WTok` (the token-collection
loop of `get_word_timestamps`); `none` means the token is discarded. -/
def collect_tok (r : RawToken) : Option WTok :=
  if is_whole_control_token r.text then none
  else
    let clean := strip_embedded r.text
    if (rustTrim (trimMatches (Char.ofNat 0) clean)).isEmpty then none
    else some ⟨clean, r.p, cs_to_s r.t0, cs_to_s r.t1,
      if 0 ≤ r.t_dtw then some (cs_to_s r.t_dtw) else none⟩

/-- Token-collection loop of `get_word_timestamps`. -/
def collect_toks (raw : List RawToken) : List WTok := raw.filterMap collect_tok

/-- The previous surviving token's anchor
(`i.checked_sub(1).and_then(|j| toks.get(j)).and_then(|t| t.anchor)`). -/
def anchor_prev (toks : List WTok) : Nat → Option ℚ
  | 0 => none
  | j + 1 => (toks[j]?).bind (·.anchor)

/-- The next surviving token's anchor. -/
def anchor_next (toks : List WTok) (i : Nat) : Option ℚ :=
  (toks[i + 1]?).bind (·.anchor)

/-- Effective start bound of surviving token `t` at index `i`. -/
def eff_start (toks : List WTok) (i : Nat) (t : WTok) : ℚ :=
  match anchor_prev toks i, t.anchor with
  | some l, some c => (1/2 : ℚ) * (l + c)
  | _, _ => t.t0

/-- Effective end bound of surviving token `t` at index `i`. -/
def eff_end (toks : List WTok) (i : Nat) (t : WTok) : ℚ :=
  match t.anchor, anchor_next toks i with
  | some c, some r => (1/2 : ℚ) * (c + r)
  | _, _ => t.t1

/-- Tokens paired with their effective bounds (the `bounds` vector). -/
def with_bounds (toks : List WTok) : List (WTok × ℚ × ℚ) :=
  toks.mapIdx (fun i t => (t, eff_start toks i t, eff_end toks i t))

/-- Word-grouping fold state of `get_word_timestamps`. -/
structure GroupSt where
  words : List WordTimestamp
  cur : Str
  ps : List ℚ
  w_start : ℚ
  w_end : ℚ
  started : Bool
deriving Repr, DecidableEq

/-- Mean probability: `(!ps.is_empty()).then(|| ps.sum() / ps.len())`. -/
def mean_opt (ps : List ℚ) : Option ℚ :=
  if ps.isEmpty then none else some (ps.sum / (ps.length : ℚ))

/-- Word emission (the push of a finished word, guarded by non-emptiness of the
trimmed text). -/
def flushWords (st : GroupSt) : List WordTimestamp :=
  let w := rustTrim st.cur
  if w.isEmpty then st.words
  else st.words ++ [⟨w, st.w_start, st.w_end, mean_opt st.ps⟩]

/-- Test of the word-boundary rule: the token's text begins with a space or
newline glyph. -/
def starts_glyph (s : Str) : Bool :=
  match s with
  | c :: _ => c = ' ' || c = '\n'
  | [] => false

/-- One iteration of the grouping loop of `get_word_timestamps`. -/
def group_step (st : GroupSt) (x : WTok × ℚ × ℚ) : GroupSt :=
  let st := if starts_glyph x.1.text && st.started then
      { st with words := flushWords st, cur := [], ps := [], started := false }
    else st
  let st := if !st.started then { st with w_start := x.2.1, started := true } else st
  { st with w_end := x.2.2, cur := st.cur ++ x.1.text, ps := st.ps ++ [x.1.p] }

/-- Model of `get_word_timestamps` (`transcribe.rs`). -/
def get_word_timestamps (raw : List RawToken) : List WordTimestamp :=
  let toks := collect_toks raw
  if toks.isEmpty then []
  else
    match with_bounds toks with
    | [] => []
    | x :: xs =>
      let st0 : GroupSt := ⟨[], [], [], x.2.1, x.2.2, false⟩
      let stF := (x :: xs).foldl group_step st0
      if stF.started then flushWords stF else stF.words

/-- One decoded hypothesis of a chunk, as read back from the whisper state
(`seg.to_str()`, `seg.start_timestamp()`, `seg.end_timestamp()`, its token
list), together with the label the external speaker-embedding subsystem
returns for this hypothesis' audio (the assembler consumes that subsystem;
its `"?"` fallbacks are values of `speaker`). -/
structure Hyp where
  text : Str
  t0 : Int
  t1 : Int
  tokens : List RawToken
  speaker : Str
deriving Repr, DecidableEq

/-- One speech chunk (`SpeechSegment` start offset) with the hypotheses the
external decoder produced for it. -/
structure Chunk where
  start : ℚ
  hyps : List Hyp
deriving Repr, DecidableEq

/-- The options of `run_transcription_pipeline` that the assembly logic reads. -/
structure AsmOptions where
  offset : Option ℚ
  word_timestamps : Option Bool
  diarize : Bool
deriving Repr, DecidableEq

/-- Mutable state of the assembly loop of `run_transcription_pipeline`. -/
structure AsmState where
  segments : List Segment
  previous_text : Option Str
  empty_segments : Nat
  total_chars : Nat
deriving Repr, DecidableEq

/-- First half of the overlap trimming: `if last.end > seg_start { last.end = seg_start }`. -/
def trim_stop (last : Segment) (s : ℚ) : Segment :=
  if s < last.stop then { last with stop := s } else last

/-- Second half of the overlap trimming: clamp the last word's end to the
(already trimmed) segment end. -/
def trim_word (last : Segment) : Segment :=
  match last.words with
  | some ws =>
    match ws.getLast? with
    | some lw =>
      if last.stop < lw.stop then
        { last with words := some (ws.dropLast ++ [{ lw with stop := last.stop }]) }
      else last
    | none => last
  | none => last

/-- Overlap-trimming of the previously emitted segment
(`if let Some(last) = segments.last_mut() { ... }`). -/
def trim_last (segs : List Segment) (s : ℚ) : List Segment :=
  match segs.getLast? with
  | none => segs
  | some last => segs.dropLast ++ [trim_word (trim_stop last s)]

/-- Per-hypothesis body of the assembly loop.  `base` is
`speech_segment.start + user_offset`; `numHyps` is `state.full_n_segments()`.
The `total_chars` counter counts characters where Rust counts bytes (see the
header note). -/
def process_hyp (opts : AsmOptions) (base : ℚ) (numHyps : Nat)
    (st : AsmState) (h : Hyp) : AsmState :=
  let text := trimStartWs h.text
  let approx_start := base + cs_to_s h.t0
  let approx_end := base + cs_to_s h.t1
  let empty2 := if (rustTrim text).isEmpty then st.empty_segments + 1 else st.empty_segments
  let wts := if opts.word_timestamps = some true then get_word_timestamps h.tokens else []
  let sew : ℚ × ℚ × Option (List WordTimestamp) :=
    if wts.isEmpty then (approx_start, approx_end, none)
    else
      let shifted := wts.map (fun w =>
        { w with start := w.start + base, stop := w.stop + base })
      let s := (shifted.head?).elim approx_start (·.start)
      let e := (shifted.getLast?).elim s (·.stop)
      (s, e, some shifted)
  let segs := trim_last st.segments sew.1
  let speaker_id := if 0 < numHyps ∧ opts.diarize then some h.speaker else none
  let seg : Segment := ⟨sew.1, sew.2.1, text, speaker_id, sew.2.2⟩
  { segments := segs ++ [seg],
    previous_text := if (rustTrim text).isEmpty then none else some text,
    empty_segments := empty2,
    total_chars := st.total_chars + text.length }

/-- Per-chunk body of the assembly loop. -/
def process_chunk (opts : AsmOptions) (st : AsmState) (c : Chunk) : AsmState :=
  let base := c.start + opts.offset.getD 0
  c.hyps.foldl (process_hyp opts base c.hyps.length) st

/-- Model of the assembly loop of `run_transcription_pipeline`
(`transcribe.rs`): the decoder's per-chunk output is an input here (the decode
of each chunk is an external call whose failure aborts the whole call before
any further segment is produced), and the progress / new-segment callbacks are
pure observations that do not affect the state. -/
def run_transcription_pipeline (opts : AsmOptions) (chunks : List Chunk) : AsmState :=
  chunks.foldl (process_chunk opts) ⟨[], none, 0, 0⟩

/-- Segments the flatten stage of the Formatter keeps: a segment is dropped
exactly when it has no word list and empty/whitespace-only text. -/
def keepSeg (s : Segment) : Bool := !(s.words.isNone && (rustTrim s.text).isEmpty)

/-- Spec-side notion for C3: the midpoint of two anchors. -/
def midpoint (a b : ℚ) : ℚ := (a + b) / 2

/-- The printable body of a token text: the text with its single leading
space/newline glyph (if any) removed. -/
def body_of (s : Str) : Str := if starts_glyph s then s.tail else s

/-- Spec-side cleanliness for C2: the token text carries no control markers
(whole or embedded) and is whitespace-clean: apart from an optional single
leading space/newline glyph it consists of printable, non-whitespace,
non-NUL characters. -/
def ws_clean (r : RawToken) : Bool :=
  !is_whole_control_token r.text && decide (strip_embedded r.text = r.text) &&
    !(body_of r.text).isEmpty &&
    (body_of r.text).all (fun c => !rustIsWs c && !(c = Char.ofNat 0))

/-- One step of the run partition: prepend token `t` to an existing partition,
either opening a new run (when the following run starts with a glyph token or
no run exists yet) or extending the first run. -/
def runs_cons_raw (t : RawToken) : List (List RawToken) → List (List RawToken)
  | [] => [[t]]
  | g :: gs =>
    if g.head?.elim false (fun u => starts_glyph u.text) then [t] :: g :: gs
    else (t :: g) :: gs

/-- Spec-side partition of a token stream into whitespace-delimited runs: a new
run starts at every token whose text begins with a space/newline glyph. -/
def runs_of : List RawToken → List (List RawToken)
  | [] => []
  | t :: ts => runs_cons_raw t (runs_of ts)

/-- Spec-side word built from one run, per C2: concatenated (trimmed) run text,
the run's first token's coarse start, its last token's coarse end, and the mean
of the run's token probabilities. -/
def run_word (run : List RawToken) : WordTimestamp :=
  ⟨rustTrim ((run.map (·.text)).flatten),
   (run.head?).elim 0 (fun r => cs_to_s r.t0),
   (run.getLast?).elim 0 (fun r => cs_to_s r.t1),
   if run.isEmpty then none else some ((run.map (·.p)).sum / (run.length : ℚ))⟩

/-- The surviving token a clean raw token becomes. -/
def to_w (r : RawToken) : WTok :=
  ⟨r.text, r.p, cs_to_s r.t0, cs_to_s r.t1,
   if 0 ≤ r.t_dtw then some (cs_to_s r.t_dtw) else none⟩

/-- Cleanliness at the surviving-token level. -/
def wclean (t : WTok) : Bool :=
  !(body_of t.text).isEmpty && (body_of t.text).all (fun c => !rustIsWs c)

/-- Run-partition step at the surviving-token level. -/
def runs_cons_w (t : WTok) : List (List WTok) → List (List WTok)
  | [] => [[t]]
  | g :: gs =>
    if g.head?.elim false (fun u => starts_glyph u.text) then [t] :: g :: gs
    else (t :: g) :: gs

/-- Run partition at the surviving-token level. -/
def runs_w : List WTok → List (List WTok)
  | [] => []
  | t :: ts => runs_cons_w t (runs_w ts)

/-- Coarse end of the last token of a list, with default `d` for the empty
list (tail-recursive form convenient for the fold proofs). -/
def lastT1 : List WTok → ℚ → ℚ
  | [], d => d
  | t :: ts, _ => lastT1 ts t.t1

/-- Run word at the surviving-token level. -/
def run_wordW (run : List WTok) : WordTimestamp :=
  ⟨rustTrim ((run.map (·.text)).flatten),
   (run.head?).elim 0 (·.t0),
   (run.getLast?).elim 0 (·.t1),
   if run.isEmpty then none else some ((run.map (·.p)).sum / (run.length : ℚ))⟩

/-- A well-formed run: nonempty, clean tokens, and no internal word boundary. -/
def good_run (run : List WTok) : Prop :=
  run ≠ [] ∧ (∀ t ∈ run, wclean t = true) ∧ (∀ t ∈ run.tail, starts_glyph t.text = false)

/-- A run whose head token begins with a space/newline glyph. -/
def glyph_head (run : List WTok) : Prop :=
  ∃ h tl, run = h :: tl ∧ starts_glyph h.text = true

/-- The token/bounds pairing of the grouping fold in the anchor-free case. -/
def pairB (t : WTok) : WTok × ℚ × ℚ := (t, t.t0, t.t1)

/-! Concrete inputs used by counterexamples and witnesses. -/

/-- A segment with two word timestamps, `hello` and `world`, a high
characters-per-second slice. -/
def wSegHello : Segment :=
  ⟨0, 3/10, [], none, some
    [⟨['h','e','l','l','o'], 0, 1/10, none⟩,
     ⟨['w','o','r','l','d'], 15/100, 3/10, none⟩]⟩

/-- Default configuration with `max_lines = 0`. -/
def cfgL0 : PostProcessConfig := { defaultConfig with max_lines := 0 }

/-- A segment with one word far shorter than `min_word_dur`, whose stretched
start becomes negative. -/
def wSegTiny : Segment := ⟨0, 1/100, [], none, some [⟨['h','i'], 0, 1/100, none⟩]⟩

/-- Assembler options: no offset, no word timestamps, no diarization. -/
def asmPlain : AsmOptions := ⟨none, none, false⟩

/-- A chunk whose decoder output has hypotheses in non-chronological order. -/
def chunkUnsorted : Chunk :=
  ⟨0, [⟨['a'], 100, 200, [], []⟩, ⟨['b'], 0, 50, [], []⟩]⟩

/-- A chunk with a single lowercase hypothesis. -/
def chunkLower : Chunk := ⟨0, [⟨['h','i'], 0, 50, [], []⟩]⟩

/-- A clean, anchor-free raw token stream: two whitespace-delimited runs. -/
def c2raw : List RawToken :=
  [⟨[' ', 'H', 'e'], 9/10, 0, 10, -1⟩,
   ⟨['l', 'l', 'o'], 7/10, 10, 20, -1⟩,
   ⟨[' ', 'y', 'o'], 1/2, 20, 30, -1⟩,
   ⟨['u'], 1, 30, 40, -1⟩]

/-- Surviving tokens with anchors on both sides for the C3 witness. -/
def c3toks : List WTok :=
  [⟨['a'], 1, 0, 1, some 2⟩, ⟨['b'], 1, 2, 3, some 4⟩]

/-- The second token of `c3toks`. -/
def c3tok : WTok := ⟨['b'], 1, 2, 3, some 4⟩

/-- The single cue the Formatter produces from `wSegHello` under the default
configuration. -/
def cueHello : SubtitleCue :=
  ⟨0, 3/10,
   [['h','e','l','l','o',' ','w','o','r','l','d']],
   [⟨['h','e','l','l','o'], 0, 1/10, none⟩,
    ⟨['w','o','r','l','d'], 3/20, 3/10, none⟩],
   none⟩

/-- The single cue the Formatter produces from `wSegTiny` under the default
configuration. -/
def cueTiny : SubtitleCue :=
  ⟨0, 11/200, [['h','i']], [⟨['h','i'], -(9/200), 11/200, none⟩], none⟩

/-! ## Helper lemmas -/

theorem next_ok_lt {g : List Tok} {s : Nat} {cfg : PostProcessConfig} {j : Nat}
    (h : next_ok g s cfg j = true) : j < g.length := by
  unfold next_ok at h
  simp only [Bool.and_eq_true, decide_eq_true_eq] at h
  exact h.1

theorem growWindow_le (g : List Tok) (s : Nat) (cfg : PostProcessConfig) (j : Nat) :
    j ≤ growWindow g s cfg j := by
  have H : ∀ n j, g.length - j ≤ n → j ≤ growWindow g s cfg j := by
    intro n
    induction n with
    | zero =>
      intro j hj
      rw [growWindow]
      have hnot : ¬ next_ok g s cfg j = true := fun hc => by
        have := next_ok_lt hc
        omega
      simp [hnot]
    | succ n ih =>
      intro j hj
      rw [growWindow]
      split
      · next h =>
        have hlt := next_ok_lt h
        exact Nat.le_trans (Nat.le_succ j) (ih (j + 1) (by omega))
      · exact Nat.le_refl j
  exact H (g.length - j) j (Nat.le_refl _)

theorem build_cue_fst_lt (g : List Tok) (i : Nat) (cfg : PostProcessConfig) :
    i < (build_cue g i cfg).1 := by
  have h := growWindow_le g i cfg (i + 1)
  simp only [build_cue]
  omega

theorem foldl_inv {α σ : Type} (P : σ → Prop) (f : σ → α → σ)
    (hf : ∀ s a, P s → P (f s a)) : ∀ (l : List α) (s : σ), P s → P (l.foldl f s) := by
  intro l
  induction l with
  | nil => intro s hs; exact hs
  | cons a t ih => intro s hs; exact ih (f s a) (hf s a hs)

theorem mergeLoop_isSome (cfg : PostProcessConfig) :
    ∀ (l out : List Tok) (i : Nat), (0 < i → out ≠ []) →
      (mergeLoop cfg out i l).isSome = true := by
  have H : ∀ (m : Nat) (l out : List Tok) (i : Nat), l.length ≤ m →
      (0 < i → out ≠ []) → (mergeLoop cfg out i l).isSome = true := by
    intro m
    induction m with
    | zero =>
      intro l out i hlen _
      have : l = [] := List.length_eq_zero.mp (Nat.le_zero.mp hlen)
      subst this
      simp [mergeLoop]
    | succ m ih =>
      intro l out i hlen hinv
      cases l with
      | nil => simp [mergeLoop]
      | cons t rest =>
        rw [mergeLoop.eq_def]
        dsimp only
        split
        · next hc =>
          cases rest with
          | nil => exact absurd rfl hc.2
          | cons n rest2 =>
            exact ih rest2 _ _ (by simp at hlen ⊢; omega) (fun _ => by simp)
        · split
          · next hc2 =>
            have hout : out ≠ [] := hinv hc2.2
            match hL : out.getLast? with
            | some prev =>
              exact ih rest _ _ (by simp at hlen ⊢; omega) (fun _ => by simp)
            | none =>
              exact absurd (List.getLast?_eq_none_iff.mp hL) hout
          · exact ih rest _ _ (by simp at hlen ⊢; omega) (fun _ => by simp)
  exact fun l out i => H l.length l out i (Nat.le_refl _)

theorem clamp_and_merge_isSome (cfg : PostProcessConfig) (oracle : SilenceOracle)
    (toks : List Tok) : (clamp_and_merge_tiny_words cfg oracle toks).isSome = true := by
  unfold clamp_and_merge_tiny_words
  split
  · rfl
  · exact mergeLoop_isSome cfg _ [] 0 (fun h => absurd h (by omega))

/-! ## C6 -/

/-- C6: the Formatter (`process_segments`) is total: for every segment list,
configuration and silence oracle it returns normally (`isSome`: the modelled
panic sites, in particular the `.unwrap()` of the tiny-word merge pass, are
never hit), and an empty segment list yields an empty cue list. -/
theorem claim_C6 (segs : List Segment) (cfg : PostProcessConfig)
    (oracle? : Option SilenceOracle) :
    (process_segments segs cfg oracle?).isSome = true ∧
      process_segments ([] : List Segment) cfg oracle? = some [] := by
  constructor
  · simp only [process_segments, Option.isSome_map']
    split
    · rfl
    · rw [Option.isSome_map']
      exact clamp_and_merge_isSome cfg _ _
  · unfold process_segments flattenSegs
    simp

/-! ## C10 -/

theorem flattenSegs_filter (segs : List Segment) :
    flattenSegs (segs.filter keepSeg) = flattenSegs segs := by
  induction segs with
  | nil => rfl
  | cons s rest ih =>
    cases hk : keepSeg s with
    | true =>
      rw [List.filter_cons_of_pos hk]
      simp only [flattenSegs, List.map_cons, List.flatten_cons] at *
      rw [ih]
    | false =>
      rw [List.filter_cons_of_neg (by simp [hk])]
      have hdrop : s.words = none ∧ (rustTrim s.text).isEmpty = true := by
        unfold keepSeg at hk
        simp only [Bool.not_eq_false', Bool.and_eq_true, Option.isNone_iff_eq_none] at hk
        exact hk
      simp only [flattenSegs, List.map_cons, List.flatten_cons] at *
      rw [ih, hdrop.1]
      simp [hdrop.2]

/-- C10: the Formatter's output over a segment list equals its output over the
same list with every word-less, empty/whitespace-text segment removed — such
segments contribute no tokens at the flatten stage. -/
theorem claim_C10 (segs : List Segment) (cfg : PostProcessConfig)
    (oracle? : Option SilenceOracle) :
    process_segments (segs.filter keepSeg) cfg oracle? = process_segments segs cfg oracle? := by
  simp only [process_segments, flattenSegs_filter]

/-! ## C7 -/

/-- C7 (amended): line splitting treats `max_lines = 0` exactly like
`max_lines = 1` (one rendered line, no split).  The full Formatter output can
still differ between the two configurations, because the cue-window growth
condition compares the raw character count against
`max_chars_per_line * max_lines`, which is `0` when `max_lines = 0`
(see `claim_C7_cex`). -/
theorem claim_C7 (slice : List Tok) (cfg : PostProcessConfig) :
    split_into_lines slice { cfg with max_lines := 0 } =
      split_into_lines slice { cfg with max_lines := 1 } := by
  unfold split_into_lines
  simp

/-- C7 counterexample: with the default configuration, `max_lines = 0` and
`max_lines = 1` produce different cue lists on a two-word segment whose first
word exceeds the cps cap (2 cues versus 1). -/
theorem claim_C7_cex :
    process_segments [wSegHello] cfgL0 none ≠
      process_segments [wSegHello] defaultConfig none := by
  with_unfolding_all decide

/-! ## C1 -/

theorem dropLast_append_getLast? {l : List Segment} {a : Segment}
    (h : l.getLast? = some a) : l.dropLast ++ [a] = l := by
  have hne : l ≠ [] := by
    intro he
    subst he
    simp at h
  have h2 : l.getLast hne = a := by
    rw [List.getLast?_eq_getLast l hne] at h
    exact Option.some_inj.mp h
  rw [← h2]
  exact List.dropLast_append_getLast hne

theorem trim_word_start (l : Segment) : (trim_word l).start = l.start := by
  unfold trim_word
  split <;> try rfl
  split <;> try rfl
  split <;> rfl

theorem trim_word_stop (l : Segment) : (trim_word l).stop = l.stop := by
  unfold trim_word
  split <;> try rfl
  split <;> try rfl
  split <;> rfl

theorem trim_word_text (l : Segment) : (trim_word l).text = l.text := by
  unfold trim_word
  split <;> try rfl
  split <;> try rfl
  split <;> rfl

theorem trim_stop_start (l : Segment) (s : ℚ) : (trim_stop l s).start = l.start := by
  unfold trim_stop
  split <;> rfl

theorem trim_stop_text (l : Segment) (s : ℚ) : (trim_stop l s).text = l.text := by
  unfold trim_stop
  split <;> rfl

theorem trim_stop_le (l : Segment) (s : ℚ) : (trim_stop l s).stop ≤ s := by
  unfold trim_stop
  split
  · exact le_refl s
  · next hc => exact le_of_not_lt hc

theorem trim_last_eq (segs : List Segment) (s : ℚ) (last : Segment)
    (h : segs.getLast? = some last) :
    trim_last segs s = segs.dropLast ++ [trim_word (trim_stop last s)] ∧
      (trim_word (trim_stop last s)).start = last.start ∧
      (trim_word (trim_stop last s)).text = last.text ∧
      (trim_word (trim_stop last s)).stop ≤ s := by
  refine ⟨?_, ?_, ?_, ?_⟩
  · unfold trim_last
    rw [h]
  · rw [trim_word_start, trim_stop_start]
  · rw [trim_word_text, trim_stop_text]
  · rw [trim_word_stop]
    exact trim_stop_le last s

theorem chain_trim_append (segs : List Segment) (s : ℚ) (new : Segment)
    (hchain : List.Chain' (fun a b => a.stop ≤ b.start) segs) (hnew : new.start = s) :
    List.Chain' (fun a b => a.stop ≤ b.start) (trim_last segs s ++ [new]) := by
  cases hL : segs.getLast? with
  | none =>
    have : segs = [] := List.getLast?_eq_none_iff.mp hL
    subst this
    simp [trim_last]
  | some last =>
    obtain ⟨heq, hstart, _, hstop⟩ := trim_last_eq segs s last hL
    rw [heq]
    have hsplit : segs.dropLast ++ [last] = segs := dropLast_append_getLast? hL
    rw [← hsplit] at hchain
    rw [List.chain'_append] at hchain
    obtain ⟨h1, _, h3⟩ := hchain
    rw [List.append_assoc, List.singleton_append]
    rw [List.chain'_append]
    refine ⟨h1, ?_, ?_⟩
    · rw [List.chain'_pair, hnew]
      exact hstop
    · intro x hx y hy
      simp only [List.head?_cons, Option.mem_def, Option.some_inj] at hy
      subst hy
      have hlink := h3 x hx last (by simp)
      rw [hstart]
      exact hlink

theorem process_hyp_chain (opts : AsmOptions) (base : ℚ) (n : Nat)
    (st : AsmState) (h : Hyp)
    (hc : List.Chain' (fun a b => a.stop ≤ b.start) st.segments) :
    List.Chain' (fun a b => a.stop ≤ b.start) (process_hyp opts base n st h).segments := by
  unfold process_hyp
  exact chain_trim_append _ _ _ hc rfl

/-- C1 (amended): for every assembler run, every adjacent pair of emitted
segments satisfies `end_i ≤ start_{i+1}` — when an overlap would occur the
earlier segment's end is trimmed down to the later segment's start.  The list
need not be sorted by `start` (see `claim_C1_cex`). -/
theorem claim_C1 (opts : AsmOptions) (chunks : List Chunk) :
    List.Chain' (fun a b => a.stop ≤ b.start)
      (run_transcription_pipeline opts chunks).segments := by
  unfold run_transcription_pipeline
  refine foldl_inv (fun st : AsmState => List.Chain' (fun a b => a.stop ≤ b.start) st.segments)
    (process_chunk opts) ?_ chunks ⟨[], none, 0, 0⟩ (by simp)
  intro st c hst
  unfold process_chunk
  exact foldl_inv _ _ (fun st2 h2 hst2 => process_hyp_chain opts _ _ st2 h2 hst2) _ _ hst

/-- C1 counterexample: a chunk whose decoder output lists a later-starting
hypothesis first yields a segment list that is not sorted by start
(`starts = [1, 0]`), refuting the sortedness half of the claim. -/
theorem claim_C1_cex :
    ((run_transcription_pipeline asmPlain [chunkUnsorted]).segments.map (·.start)) = [1, 0] ∧
      ¬ ((1 : ℚ) ≤ 0) := by
  with_unfolding_all decide

/-! ## C4 and C5 -/

theorem trim_last_map_text (segs : List Segment) (s : ℚ) :
    (trim_last segs s).map (·.text) = segs.map (·.text) := by
  cases hL : segs.getLast? with
  | none => unfold trim_last; rw [hL]
  | some last =>
    obtain ⟨heq, _, htext, _⟩ := trim_last_eq segs s last hL
    rw [heq]
    conv_rhs => rw [← dropLast_append_getLast? hL]
    simp [htext]

theorem process_hyp_texts (o : AsmOptions) (b : ℚ) (n : Nat) (st : AsmState) (h : Hyp) :
    ((process_hyp o b n st h).segments).map (·.text) =
      st.segments.map (·.text) ++ [trimStartWs h.text] := by
  unfold process_hyp
  simp [trim_last_map_text]

theorem process_hyp_empty (o : AsmOptions) (b : ℚ) (n : Nat) (st : AsmState) (h : Hyp) :
    (process_hyp o b n st h).empty_segments =
      st.empty_segments +
        (if (rustTrim (trimStartWs h.text)).isEmpty then 1 else 0) := by
  unfold process_hyp
  dsimp only
  split <;> simp

theorem hyps_fold_texts (o : AsmOptions) (b : ℚ) (n : Nat) :
    ∀ (hyps : List Hyp) (st : AsmState),
      (((hyps.foldl (process_hyp o b n) st).segments).map (·.text)) =
        st.segments.map (·.text) ++ hyps.map (fun h => trimStartWs h.text) := by
  intro hyps
  induction hyps with
  | nil => intro st; simp
  | cons h t ih =>
    intro st
    rw [List.foldl_cons, ih, process_hyp_texts]
    simp

theorem hyps_fold_empty (o : AsmOptions) (b : ℚ) (n : Nat) :
    ∀ (hyps : List Hyp) (st : AsmState),
      (hyps.foldl (process_hyp o b n) st).empty_segments =
        st.empty_segments +
          (hyps.filter (fun h => (rustTrim (trimStartWs h.text)).isEmpty)).length := by
  intro hyps
  induction hyps with
  | nil => intro st; simp
  | cons h t ih =>
    intro st
    rw [List.foldl_cons, ih, process_hyp_empty]
    cases hp : (rustTrim (trimStartWs h.text)).isEmpty with
    | true =>
      simp only [List.filter_cons, hp, if_true]
      simp
      omega
    | false =>
      simp only [List.filter_cons, hp, if_false]
      simp

theorem chunks_fold_texts (o : AsmOptions) :
    ∀ (chunks : List Chunk) (st : AsmState),
      (((chunks.foldl (process_chunk o) st).segments).map (·.text)) =
        st.segments.map (·.text) ++
          ((chunks.map (·.hyps)).flatten).map (fun h => trimStartWs h.text) := by
  intro chunks
  induction chunks with
  | nil => intro st; simp
  | cons c t ih =>
    intro st
    rw [List.foldl_cons, ih]
    unfold process_chunk
    rw [hyps_fold_texts]
    simp

theorem chunks_fold_empty (o : AsmOptions) :
    ∀ (chunks : List Chunk) (st : AsmState),
      (chunks.foldl (process_chunk o) st).empty_segments =
        st.empty_segments +
          (((chunks.map (·.hyps)).flatten).filter
            (fun h => (rustTrim (trimStartWs h.text)).isEmpty)).length := by
  intro chunks
  induction chunks with
  | nil => intro st; simp
  | cons c t ih =>
    intro st
    rw [List.foldl_cons, ih]
    unfold process_chunk
    rw [hyps_fold_empty]
    simp [List.filter_append]
    omega

/-- C4 (amended): the assembler never alters casing.  Every emitted segment's
text is its hypothesis' raw text with leading whitespace trimmed — in
particular no first-segment capitalization is performed anywhere
(see `claim_C4_cex`). -/
theorem claim_C4 (opts : AsmOptions) (chunks : List Chunk) :
    ((run_transcription_pipeline opts chunks).segments.map (·.text)) =
      ((chunks.map (·.hyps)).flatten).map (fun h => trimStartWs h.text) := by
  unfold run_transcription_pipeline
  rw [chunks_fold_texts]
  simp

/-- C4 counterexample: the very first segment of a transcript whose hypothesis
text is `"hi"` is emitted as `"hi"`, its first alphabetic character left
uncapitalized, refuting the claim at this input. -/
theorem claim_C4_cex :
    ((run_transcription_pipeline asmPlain [chunkLower]).segments.map (·.text)) =
        [['h', 'i']] ∧
      'h'.isUpper = false := by
  with_unfolding_all decide

/-- C5: the assembler emits exactly one segment per hypothesis (empty or
whitespace-only hypotheses included — they are never dropped), its
empty-segment diagnostic counter equals the number of empty/whitespace-text
hypotheses, and each segment carries its hypothesis' (possibly empty) text.
No error is raised: the assembly of decoded hypotheses is total. -/
theorem claim_C5 (opts : AsmOptions) (chunks : List Chunk) :
    (run_transcription_pipeline opts chunks).segments.length =
        ((chunks.map (·.hyps)).flatten).length ∧
      (run_transcription_pipeline opts chunks).empty_segments =
        (((chunks.map (·.hyps)).flatten).filter
          (fun h => (rustTrim (trimStartWs h.text)).isEmpty)).length ∧
      ((run_transcription_pipeline opts chunks).segments.map (·.text)) =
        ((chunks.map (·.hyps)).flatten).map (fun h => trimStartWs h.text) := by
  have htexts : ((run_transcription_pipeline opts chunks).segments.map (·.text)) =
      ((chunks.map (·.hyps)).flatten).map (fun h => trimStartWs h.text) := by
    unfold run_transcription_pipeline
    rw [chunks_fold_texts]
    simp
  refine ⟨?_, ?_, htexts⟩
  · have hlen := congrArg List.length htexts
    rw [List.length_map, List.length_map] at hlen
    exact hlen
  · unfold run_transcription_pipeline
    rw [chunks_fold_empty]
    simp

/-! ## C3 -/

/-- C3: a surviving token's effective start is the midpoint of the previous
token's anchor and its own anchor when both are present and its own coarse
start otherwise; independently, its effective end is the midpoint of its own
anchor and the next token's anchor when both are present and its own coarse
end otherwise. -/
theorem claim_C3 (toks : List WTok) (i : Nat) (t : WTok) (hmem : toks[i]? = some t) :
    (∀ l c, anchor_prev toks i = some l → t.anchor = some c →
        eff_start toks i t = midpoint l c) ∧
      ((anchor_prev toks i = none ∨ t.anchor = none) → eff_start toks i t = t.t0) ∧
      (∀ c r, t.anchor = some c → anchor_next toks i = some r →
        eff_end toks i t = midpoint c r) ∧
      ((t.anchor = none ∨ anchor_next toks i = none) → eff_end toks i t = t.t1) := by
  refine ⟨?_, ?_, ?_, ?_⟩
  · intro l c hl hc
    simp only [eff_start, hl, hc, midpoint]
    ring
  · intro h
    rcases h with h | h
    · cases ha : t.anchor <;> simp [eff_start, h, ha]
    · cases hp : anchor_prev toks i <;> simp [eff_start, h, hp]
  · intro c r hc hr
    simp only [eff_end, hc, hr, midpoint]
    ring
  · intro h
    rcases h with h | h
    · cases hn : anchor_next toks i <;> simp [eff_end, h, hn]
    · cases ha : t.anchor <;> simp [eff_end, h, ha]

theorem claim_C3_witness :
    c3toks[1]? = some c3tok ∧ anchor_prev c3toks 1 = some 2 ∧ c3tok.anchor = some 4 ∧
      eff_start c3toks 1 c3tok = midpoint 2 4 := by
  refine ⟨by with_unfolding_all rfl, by with_unfolding_all rfl, rfl, ?_⟩
  exact (claim_C3 c3toks 1 c3tok (by with_unfolding_all rfl)).1 2 4
    (by with_unfolding_all rfl) rfl

/-! ## C8 and C9 machinery -/

theorem joinSp_append (xs ys : List Str) (hx : xs ≠ []) (hy : ys ≠ []) :
    joinSp (xs ++ ys) = joinSp xs ++ ' ' :: joinSp ys := by
  induction xs with
  | nil => exact absurd rfl hx
  | cons x xs' ih =>
    cases xs' with
    | nil =>
      cases ys with
      | nil => exact absurd rfl hy
      | cons y ys' => rfl
    | cons x2 xs'' =>
      have ih2 := ih (by simp)
      calc joinSp ((x :: x2 :: xs'') ++ ys)
          = x ++ ' ' :: joinSp ((x2 :: xs'') ++ ys) := rfl
        _ = x ++ ' ' :: (joinSp (x2 :: xs'') ++ ' ' :: joinSp ys) := by rw [ih2]
        _ = (x ++ ' ' :: joinSp (x2 :: xs'')) ++ ' ' :: joinSp ys := by simp
        _ = joinSp (x :: x2 :: xs'') ++ ' ' :: joinSp ys := rfl

theorem render_slice_take_drop (sl : List Tok) (k : Nat) (h1 : 0 < k)
    (h2 : k < sl.length) :
    render_slice (sl.take k) ++ ' ' :: render_slice (sl.drop k) = render_slice sl := by
  unfold render_slice
  rw [← joinSp_append]
  · rw [← List.map_append, List.take_append_drop]
  · simp only [ne_eq, List.map_eq_nil, List.take_eq_nil_iff]
    intro hc
    rcases hc with hc | hc
    · omega
    · subst hc; simp at h2
  · simp only [ne_eq, List.map_eq_nil, List.drop_eq_nil_iff]
    omega

theorem bestCand_mem (slice : List Tok) (cfg : PostProcessConfig) (cands : List Nat)
    (h : cands ≠ []) : bestCand slice cfg cands ∈ cands := by
  unfold bestCand
  have key : ∀ (l : List Nat) (acc : Nat × Option ℚ), acc.1 ∈ cands →
      (∀ x ∈ l, x ∈ cands) →
      (l.foldl (fun acc k =>
        let sc := candScore slice cfg k
        match acc.2 with
        | none => (k, some sc)
        | some b => if sc < b then (k, some sc) else acc) acc).1 ∈ cands := by
    intro l
    induction l with
    | nil => intro acc ha _; exact ha
    | cons k t ih =>
      intro acc ha hl
      rw [List.foldl_cons]
      refine ih _ ?_ (fun x hx => hl x (List.mem_cons_of_mem _ hx))
      cases acc.2 with
      | none => exact hl k (List.mem_cons_self _ _)
      | some b =>
        simp only
        split
        · exact hl k (List.mem_cons_self _ _)
        · exact ha
  refine key cands (cands.headD 0, none) ?_ (fun x hx => hx)
  cases cands with
  | nil => exact absurd rfl h
  | cons c t => exact List.mem_cons_self _ _

theorem joinSp_split_into_lines (sl : List Tok) (cfg : PostProcessConfig) :
    joinSp (split_into_lines sl cfg) = render_slice sl := by
  unfold split_into_lines
  split
  · next he =>
    have : sl = [] := by simpa using he
    subst this
    rfl
  · split
    · rfl
    · dsimp only
      split
      · rfl
      · next hne hml hcne =>
        have hcne2 : (List.range' 1 (sl.length - 1)).filter (candOk sl cfg) ≠ [] := by
          intro hce
          rw [hce] at hcne
          simp at hcne
        have hmem := bestCand_mem sl cfg _ hcne2
        have hr := List.mem_filter.mp hmem
        have hrange := List.mem_range'_1.mp hr.1
        have hlen : 1 ≤ sl.length := by
          cases sl with
          | nil => simp at hne
          | cons a t => simp
        have h1 : 0 < bestCand sl cfg ((List.range' 1 (sl.length - 1)).filter (candOk sl cfg)) :=
          hrange.1
        have h2 : bestCand sl cfg ((List.range' 1 (sl.length - 1)).filter (candOk sl cfg)) <
            sl.length := by omega
        exact render_slice_take_drop sl _ h1 h2

theorem sliceTo_ne_nil (g : List Tok) (k j : Nat) (hk : k < g.length) (hj : k < j) :
    sliceTo g k j ≠ [] := by
  unfold sliceTo
  have hd : g.drop k ≠ [] := by
    simp only [ne_eq, List.drop_eq_nil_iff]
    omega
  cases hdrop : g.drop k with
  | nil => exact absurd hdrop hd
  | cons a t =>
    have : j - k = (j - k - 1) + 1 := by omega
    rw [this, List.take_succ_cons]
    simp

theorem cueLoop_mem (cfg : PostProcessConfig) (g : List Tok) :
    ∀ (i : Nat) (cue : SubtitleCue), cue ∈ cueLoop cfg g i →
      ∃ k, k < g.length ∧ cue = (build_cue g k cfg).2 := by
  have H : ∀ (n i : Nat) (cue : SubtitleCue), g.length - i ≤ n → cue ∈ cueLoop cfg g i →
      ∃ k, k < g.length ∧ cue = (build_cue g k cfg).2 := by
    intro n
    induction n with
    | zero =>
      intro i cue hn hcue
      rw [cueLoop] at hcue
      have : ¬ i < g.length := by omega
      simp [this] at hcue
    | succ n ih =>
      intro i cue hn hcue
      rw [cueLoop] at hcue
      by_cases h : i < g.length
      · simp only [dif_pos h] at hcue
        rcases List.mem_cons.mp hcue with he | ht
        · exact ⟨i, h, he⟩
        · exact ih _ _ (by have := build_cue_fst_lt g i cfg; omega) ht
      · simp [h] at hcue
  exact fun i cue hcue => H (g.length - i) i cue (Nat.le_refl _) hcue

theorem process_segments_mem (segs : List Segment) (cfg : PostProcessConfig)
    (oracle? : Option SilenceOracle) (cues : List SubtitleCue) (cue : SubtitleCue)
    (hp : process_segments segs cfg oracle? = some cues) (hm : cue ∈ cues) :
    ∃ g k, k < g.length ∧ cue = (build_cue g k cfg).2 := by
  simp only [process_segments] at hp
  split at hp
  · rw [Option.some_inj] at hp
    subst hp
    simp at hm
  · rw [Option.map_eq_some'] at hp
    obtain ⟨toks2, _, hf⟩ := hp
    subst hf
    rw [List.mem_flatten] at hm
    obtain ⟨l, hl, hcl⟩ := hm
    rw [List.mem_map] at hl
    obtain ⟨g, _, hg⟩ := hl
    subst hg
    obtain ⟨k, hk, he⟩ := cueLoop_mem cfg g 0 cue hcl
    exact ⟨g, k, hk, he⟩

theorem build_cue_shape (g : List Tok) (k : Nat) (cfg : PostProcessConfig)
    (hk : k < g.length) :
    ∃ sl : List Tok, sl ≠ [] ∧
      (build_cue g k cfg).2 =
        ⟨max ((sl.head?).elim 0 (·.start)) 0,
         (sl.getLast?).elim ((sl.head?).elim 0 (·.start)) (·.stop),
         split_into_lines sl cfg,
         sl.map (fun t => WordTimestamp.mk (render_token t) t.start t.stop t.prob),
         sl.head?.bind (·.speaker)⟩ := by
  refine ⟨sliceTo g k (growWindow g k cfg (k + 1)), ?_, rfl⟩
  exact sliceTo_ne_nil g k _ hk (Nat.lt_of_lt_of_le (Nat.lt_succ_self k)
    (growWindow_le g k cfg (k + 1)))

/-! ## C8 -/

/-- C8: for every cue the Formatter emits, joining the cue's rendered lines
with a single space equals the space-joined rendering of its constituent
word timestamps (whose words carry their punctuation suffixes reattached) —
line splitting never alters, drops or reorders token text. -/
theorem claim_C8 (segs : List Segment) (cfg : PostProcessConfig)
    (oracle? : Option SilenceOracle) (cues : List SubtitleCue) (cue : SubtitleCue)
    (hp : process_segments segs cfg oracle? = some cues) (hm : cue ∈ cues) :
    joinSp cue.lines = joinSp (cue.words.map (·.word)) := by
  obtain ⟨g, k, hk, he⟩ := process_segments_mem segs cfg oracle? cues cue hp hm
  obtain ⟨sl, _, hshape⟩ := build_cue_shape g k cfg hk
  rw [he, hshape]
  simp only [List.map_map]
  have : ((fun w : WordTimestamp => w.word) ∘
      (fun t : Tok => WordTimestamp.mk (render_token t) t.start t.stop t.prob)) =
      render_token := rfl
  rw [this]
  exact joinSp_split_into_lines sl cfg

theorem claim_C8_witness :
    process_segments [wSegHello] defaultConfig none = some [cueHello] ∧
      joinSp cueHello.lines = joinSp (cueHello.words.map (·.word)) := by
  refine ⟨by with_unfolding_all rfl, ?_⟩
  exact claim_C8 [wSegHello] defaultConfig none [cueHello] cueHello
    (by with_unfolding_all rfl) (List.mem_singleton.mpr rfl)

/-! ## C9 -/

/-- C9 (amended): every emitted cue's end equals its last constituent token's
(post-clamping) end, and its start equals its first constituent token's
(post-clamping) start clamped up to `0` (`t0.max(0.0)` in `build_cue`) — it can
differ from the first token's start when that start is negative
(see `claim_C9_cex`). -/
theorem claim_C9 (segs : List Segment) (cfg : PostProcessConfig)
    (oracle? : Option SilenceOracle) (cues : List SubtitleCue) (cue : SubtitleCue)
    (hp : process_segments segs cfg oracle? = some cues) (hm : cue ∈ cues) :
    ∃ w0 wl, cue.words.head? = some w0 ∧ cue.words.getLast? = some wl ∧
      cue.start = max w0.start 0 ∧ cue.stop = wl.stop := by
  obtain ⟨g, k, hk, he⟩ := process_segments_mem segs cfg oracle? cues cue hp hm
  obtain ⟨sl, hne, hshape⟩ := build_cue_shape g k cfg hk
  obtain ⟨s0, sl', hsl⟩ := List.exists_cons_of_ne_nil hne
  obtain ⟨lastEl, hlast⟩ := Option.isSome_iff_exists.mp
    (by rw [List.getLast?_isSome]; exact hne)
  refine ⟨⟨render_token s0, s0.start, s0.stop, s0.prob⟩,
    ⟨render_token lastEl, lastEl.start, lastEl.stop, lastEl.prob⟩, ?_, ?_, ?_, ?_⟩
  · rw [he, hshape]
    simp only
    rw [hsl]
    simp
  · rw [he, hshape]
    simp only
    rw [List.getLast?_map, hlast]
    rfl
  · rw [he, hshape]
    simp only
    rw [hsl]
    simp
  · rw [he, hshape]
    simp only
    rw [hlast]
    rfl

theorem claim_C9_witness :
    process_segments [wSegTiny] defaultConfig none = some [cueTiny] ∧
      (∃ w0 wl, cueTiny.words.head? = some w0 ∧ cueTiny.words.getLast? = some wl ∧
        cueTiny.start = max w0.start 0 ∧ cueTiny.stop = wl.stop) := by
  refine ⟨by with_unfolding_all rfl, ?_⟩
  exact claim_C9 [wSegTiny] defaultConfig none [cueTiny] cueTiny
    (by with_unfolding_all rfl) (List.mem_singleton.mpr rfl)

/-- C9 counterexample: a word stretched to the minimum duration gets a negative
start; the resulting cue's start is `0`, not its first constituent token's
start `-9/200`. -/
theorem claim_C9_cex :
    ((process_segments [wSegTiny] defaultConfig none).map
        (fun cs => cs.map (fun c => (c.start, c.words.map (·.start))))) =
      some [(0, [-(9/200)])] ∧ ¬ ((0 : ℚ) = -(9/200)) := by
  constructor
  · with_unfolding_all rfl
  · with_unfolding_all decide

/-! ## C2 machinery: trimming and token collection -/

theorem dropWhile_eq_self_of_head {p : Char → Bool} {l : Str}
    (h : ∀ x, l.head? = some x → p x = false) : l.dropWhile p = l := by
  cases l with
  | nil => rfl
  | cons a t =>
    rw [List.dropWhile_cons, h a rfl]
    simp

theorem rustTrim_append_of (G B : Str) (hG : ∀ c ∈ G, rustIsWs c = true)
    (hB : ∀ c ∈ B, rustIsWs c = false) (hne : B ≠ []) : rustTrim (G ++ B) = B := by
  unfold rustTrim trimStartWs trimEndWs
  have h1 : (G ++ B).dropWhile rustIsWs = B := by
    rw [List.dropWhile_append]
    have hGnil : G.dropWhile rustIsWs = [] := by
      rw [List.dropWhile_eq_nil_iff]
      exact fun x hx => hG x hx
    rw [hGnil]
    simp only [List.isEmpty_nil, if_true]
    exact dropWhile_eq_self_of_head (fun x hx => hB x (List.mem_of_mem_head? hx))
  rw [h1]
  have h2 : B.reverse.dropWhile rustIsWs = B.reverse := by
    refine dropWhile_eq_self_of_head (fun x hx => ?_)
    have : x ∈ B.reverse := List.mem_of_mem_head? hx
    exact hB x (List.mem_reverse.mp this)
  rw [h2, List.reverse_reverse]

theorem trimMatches_eq_self (c : Char) (s : Str)
    (h1 : ∀ x, s.head? = some x → x ≠ c)
    (h2 : ∀ x, s.getLast? = some x → x ≠ c) : trimMatches c s = s := by
  unfold trimMatches
  have hd : s.dropWhile (· = c) = s := by
    refine dropWhile_eq_self_of_head (fun x hx => ?_)
    exact decide_eq_false (h1 x hx)
  rw [hd]
  have h2' : s.reverse.dropWhile (· = c) = s.reverse := by
    refine dropWhile_eq_self_of_head (fun x hx => ?_)
    rw [List.head?_reverse] at hx
    exact decide_eq_false (h2 x hx)
  rw [h2', List.reverse_reverse]

theorem starts_glyph_cases (s : Str) (h : starts_glyph s = true) :
    ∃ c t, s = c :: t ∧ (c = ' ' ∨ c = '\n') := by
  cases s with
  | nil => simp [starts_glyph] at h
  | cons c t =>
    refine ⟨c, t, rfl, ?_⟩
    simp only [starts_glyph, Bool.or_eq_true, decide_eq_true_eq] at h
    simpa using h

theorem body_decomp (s : Str) :
    (starts_glyph s = false ∧ body_of s = s) ∨
      (∃ c, (c = ' ' ∨ c = '\n') ∧ s = c :: body_of s) := by
  cases hg : starts_glyph s with
  | false => exact Or.inl ⟨rfl, by simp [body_of, hg]⟩
  | true =>
    obtain ⟨c, t, hs, hc⟩ := starts_glyph_cases s hg
    subst hs
    refine Or.inr ⟨c, hc, ?_⟩
    simp [body_of, hg]

theorem glyph_is_ws {c : Char} (h : c = ' ' ∨ c = '\n') : rustIsWs c = true := by
  rcases h with h | h <;> subst h <;> decide

theorem ws_clean_parts {r : RawToken} (h : ws_clean r = true) :
    is_whole_control_token r.text = false ∧ strip_embedded r.text = r.text ∧
      body_of r.text ≠ [] ∧
      ∀ c ∈ body_of r.text, rustIsWs c = false ∧ c ≠ Char.ofNat 0 := by
  unfold ws_clean at h
  simp only [Bool.and_eq_true, Bool.not_eq_true', decide_eq_true_eq, List.all_eq_true,
    Bool.not_eq_false'] at h
  obtain ⟨⟨⟨hw, hs⟩, hb⟩, hall⟩ := h
  refine ⟨hw, hs, by simpa using hb, fun c hc => ?_⟩
  have := hall c hc
  simp only [Bool.and_eq_true, Bool.not_eq_true', Bool.not_eq_false'] at this
  exact ⟨this.1, of_decide_eq_false this.2⟩

theorem rustTrim_clean {r : RawToken} (h : ws_clean r = true) :
    rustTrim r.text = body_of r.text := by
  obtain ⟨_, _, hbne, hbody⟩ := ws_clean_parts h
  rcases body_decomp r.text with ⟨_, hb⟩ | ⟨c, hc, hb⟩
  · conv_lhs => rw [← hb]
    rw [← List.nil_append (body_of r.text)]
    exact rustTrim_append_of [] _ (by simp) (fun c hc => (hbody c hc).1) hbne
  · conv_lhs => rw [hb]
    rw [show (c :: body_of r.text) = [c] ++ body_of r.text from rfl]
    exact rustTrim_append_of [c] _ (by simpa using glyph_is_ws hc)
      (fun c hc => (hbody c hc).1) hbne

theorem trimMatches_clean {r : RawToken} (h : ws_clean r = true) :
    trimMatches (Char.ofNat 0) r.text = r.text := by
  obtain ⟨_, _, hbne, hbody⟩ := ws_clean_parts h
  obtain ⟨b, bs, hbs⟩ := List.exists_cons_of_ne_nil hbne
  refine trimMatches_eq_self _ _ (fun x hx => ?_) (fun x hx => ?_)
  · rcases body_decomp r.text with ⟨_, hb⟩ | ⟨c, hc, hb⟩
    · rw [← hb] at hx
      exact (hbody x (List.mem_of_mem_head? hx)).2
    · rw [hb] at hx
      simp only [List.head?_cons, Option.some_inj] at hx
      subst hx
      rcases hc with hc | hc <;> subst hc <;> simp [Char.ofNat]
  · have hxb : x ∈ body_of r.text := by
      rcases body_decomp r.text with ⟨_, hb⟩ | ⟨c, hc, hb⟩
      · rw [hb]
        exact List.mem_of_mem_getLast? hx
      · rw [hb, hbs] at hx
        rw [hbs]
        rw [List.getLast?_cons_cons] at hx
        exact List.mem_of_mem_getLast? hx
    exact (hbody x hxb).2

theorem collect_tok_clean {r : RawToken} (h : ws_clean r = true) :
    collect_tok r = some (to_w r) := by
  obtain ⟨hw, hs, hbne, _⟩ := ws_clean_parts h
  unfold collect_tok
  rw [hw]
  simp only [Bool.false_eq_true, if_false, hs]
  rw [trimMatches_clean h, rustTrim_clean h]
  simp only [List.isEmpty_eq_true, hbne, if_false]
  rfl

theorem collect_toks_clean {raw : List RawToken} (h : ∀ r ∈ raw, ws_clean r = true) :
    collect_toks raw = raw.map to_w := by
  induction raw with
  | nil => rfl
  | cons r t ih =>
    unfold collect_toks at *
    rw [List.filterMap_cons, collect_tok_clean (h r (List.mem_cons_self _ _)),
      List.map_cons]
    rw [ih (fun x hx => h x (List.mem_cons_of_mem _ hx))]

/-! ## C2 machinery: bounds and run partitions -/

theorem to_w_anchor_none {r : RawToken} (h : r.t_dtw < 0) : (to_w r).anchor = none := by
  unfold to_w
  simp only
  rw [if_neg (by omega)]

theorem eff_start_no_anchor (toks : List WTok) (i : Nat) (t : WTok)
    (h : t.anchor = none) : eff_start toks i t = t.t0 := by
  cases hp : anchor_prev toks i <;> simp [eff_start, h, hp]

theorem eff_end_no_anchor (toks : List WTok) (i : Nat) (t : WTok)
    (h : t.anchor = none) : eff_end toks i t = t.t1 := by
  cases hn : anchor_next toks i <;> simp [eff_end, h, hn]

theorem with_bounds_no_anchor (toks : List WTok) (h : ∀ t ∈ toks, t.anchor = none) :
    with_bounds toks = toks.map pairB := by
  apply List.ext_getElem?
  intro i
  rw [List.getElem?_map]
  unfold with_bounds
  rw [List.getElem?_mapIdx]
  cases hi : toks[i]? with
  | none => rfl
  | some t =>
    have hmem : t ∈ toks := by
      have := List.getElem?_eq_some.mp hi
      obtain ⟨hlt, hget⟩ := this
      exact hget ▸ List.getElem_mem hlt
    simp only [Option.map_some']
    rw [eff_start_no_anchor toks i t (h t hmem), eff_end_no_anchor toks i t (h t hmem)]
    rfl

theorem lastT1_eq (ts : List WTok) : ∀ d : ℚ, lastT1 ts d = (ts.getLast?).elim d (·.t1) := by
  induction ts with
  | nil => intro d; rfl
  | cons t ts' ih =>
    intro d
    cases ts' with
    | nil => rfl
    | cons u us =>
      rw [show lastT1 (t :: u :: us) d = lastT1 (u :: us) t.t1 from rfl]
      rw [ih t.t1, List.getLast?_cons_cons]
      obtain ⟨y, hy⟩ := Option.isSome_iff_exists.mp
        (show ((u :: us).getLast?).isSome = true by rw [List.getLast?_isSome]; simp)
      rw [hy]
      simp

theorem runs_w_flatten (l : List WTok) : (runs_w l).flatten = l := by
  induction l with
  | nil => rfl
  | cons t ts ih =>
    rw [show runs_w (t :: ts) = runs_cons_w t (runs_w ts) from rfl]
    cases hr : runs_w ts with
    | nil =>
      rw [hr] at ih
      simp only [List.flatten_nil] at ih
      subst ih
      rfl
    | cons g gs =>
      rw [hr] at ih
      rw [runs_cons_w]
      split
      · rw [List.flatten_cons, List.singleton_append, ih]
      · rw [List.flatten_cons] at ih ⊢
        rw [List.cons_append, ih]

theorem runs_w_good (l : List WTok) (hcl : ∀ t ∈ l, wclean t = true) :
    ∀ run ∈ runs_w l, good_run run := by
  induction l with
  | nil => intro run hr; simp [runs_w] at hr
  | cons t ts ih =>
    have hts : ∀ x ∈ ts, wclean x = true := fun x hx => hcl x (List.mem_cons_of_mem _ hx)
    have ht : wclean t = true := hcl t (List.mem_cons_self _ _)
    have hsingle : good_run [t] := by
      refine ⟨by simp, ?_, by simp⟩
      intro x hx
      rw [List.mem_singleton] at hx
      subst hx
      exact ht
    intro run hr
    rw [show runs_w (t :: ts) = runs_cons_w t (runs_w ts) from rfl] at hr
    cases hrw : runs_w ts with
    | nil =>
      rw [hrw] at hr
      rw [runs_cons_w, List.mem_singleton] at hr
      subst hr
      exact hsingle
    | cons g gs =>
      rw [hrw] at hr
      rw [runs_cons_w] at hr
      have hg : good_run g := ih hts g (by rw [hrw]; exact List.mem_cons_self _ _)
      split at hr
      · rcases List.mem_cons.mp hr with he | hm
        · subst he
          exact hsingle
        · exact ih hts run (by rw [hrw]; exact hm)
      · next hcond =>
        rcases List.mem_cons.mp hr with he | hm
        · subst he
          refine ⟨by simp, ?_, ?_⟩
          · intro x hx
            rcases List.mem_cons.mp hx with hx | hx
            · subst hx; exact ht
            · exact hg.2.1 x hx
          · intro x hx
            simp only [List.tail_cons] at hx
            cases g with
            | nil => simp at hx
            | cons u us =>
              rcases List.mem_cons.mp hx with h1 | h1
              · subst h1
                simp only [List.head?_cons, Option.elim_some] at hcond
                simpa using hcond
              · exact hg.2.2 x (by simpa using h1)
        · exact ih hts run (by rw [hrw]; exact List.mem_cons_of_mem _ hm)

theorem runs_w_tail_glyph (l : List WTok) :
    ∀ run ∈ (runs_w l).tail, glyph_head run := by
  induction l with
  | nil => intro run hr; simp [runs_w] at hr
  | cons t ts ih =>
    intro run hr
    rw [show runs_w (t :: ts) = runs_cons_w t (runs_w ts) from rfl] at hr
    cases hrw : runs_w ts with
    | nil =>
      rw [hrw] at hr
      rw [runs_cons_w] at hr
      simp at hr
    | cons g gs =>
      rw [hrw] at hr
      rw [runs_cons_w] at hr
      split at hr
      · next hcond =>
        simp only [List.tail_cons] at hr
        rcases List.mem_cons.mp hr with he | hm
        · cases g with
          | nil => simp at hcond
          | cons u us =>
            simp only [List.head?_cons, Option.elim_some] at hcond
            refine ⟨u, us, ?_, hcond⟩
            rw [he]
        · exact ih run (by rw [hrw]; simpa using hm)
      · simp only [List.tail_cons] at hr
        exact ih run (by rw [hrw]; simpa using hr)

theorem elim_map {α β γ : Type} (o : Option α) (f : α → β) (b : γ) (g : β → γ) :
    (o.map f).elim b g = o.elim b (fun x => g (f x)) := by
  cases o <;> rfl

theorem runs_w_map (raw : List RawToken) :
    runs_w (raw.map to_w) = (runs_of raw).map (List.map to_w) := by
  induction raw with
  | nil => rfl
  | cons r rs ih =>
    rw [List.map_cons]
    rw [show runs_w (to_w r :: rs.map to_w) = runs_cons_w (to_w r) (runs_w (rs.map to_w))
      from rfl]
    rw [show runs_of (r :: rs) = runs_cons_raw r (runs_of rs) from rfl]
    rw [ih]
    cases hr : runs_of rs with
    | nil => rfl
    | cons g gs =>
      rw [List.map_cons, runs_cons_w, runs_cons_raw]
      have hcond : ((g.map to_w).head?.elim false (fun u => starts_glyph u.text)) =
          (g.head?.elim false (fun u => starts_glyph u.text)) := by
        cases g <;> rfl
      rw [hcond]
      split <;> simp

theorem run_wordW_map (run : List RawToken) : run_wordW (run.map to_w) = run_word run := by
  unfold run_wordW run_word
  rw [List.map_map, List.head?_map, List.getLast?_map, elim_map, elim_map, List.map_map,
    List.length_map]
  have hie : (run.map to_w).isEmpty = run.isEmpty := by cases run <;> rfl
  rw [hie]
  rfl

theorem wclean_parts {t : WTok} (h : wclean t = true) :
    body_of t.text ≠ [] ∧ ∀ c ∈ body_of t.text, rustIsWs c = false := by
  unfold wclean at h
  simp only [Bool.and_eq_true, Bool.not_eq_true', List.all_eq_true, Bool.not_eq_true'] at h
  exact ⟨by simpa using h.1, h.2⟩

theorem run_trim (run : List WTok) (hg : good_run run) :
    rustTrim ((run.map (·.text)).flatten) ≠ [] := by
  obtain ⟨hne, hcl, htl⟩ := hg
  obtain ⟨hh, tl, hr⟩ := List.exists_cons_of_ne_nil hne
  subst hr
  have hwh := wclean_parts (hcl hh (List.mem_cons_self _ _))
  have hbody : ∀ c ∈ body_of hh.text ++ ((tl.map (·.text)).flatten),
      rustIsWs c = false := by
    intro c hc
    rcases List.mem_append.mp hc with hc | hc
    · exact hwh.2 c hc
    · rw [List.mem_flatten] at hc
      obtain ⟨l, hl, hcl'⟩ := hc
      rw [List.mem_map] at hl
      obtain ⟨t, htm, hlt⟩ := hl
      subst hlt
      have hng : starts_glyph t.text = false := htl t (by simpa using htm)
      have hwt := wclean_parts (hcl t (List.mem_cons_of_mem _ htm))
      have hbt : body_of t.text = t.text := by simp [body_of, hng]
      rw [← hbt] at hcl'
      exact hwt.2 c hcl'
  have hBne : body_of hh.text ++ ((tl.map (·.text)).flatten) ≠ [] := by
    intro hc
    exact hwh.1 (List.append_eq_nil.mp hc).1
  rw [List.map_cons, List.flatten_cons]
  rcases body_decomp hh.text with ⟨_, hb⟩ | ⟨c, hc, hb⟩
  · have hsplit : hh.text ++ ((tl.map (·.text)).flatten) =
        [] ++ (body_of hh.text ++ ((tl.map (·.text)).flatten)) := by
      rw [hb]
      simp
    rw [hsplit, rustTrim_append_of [] _ (by simp) hbody hBne]
    exact hBne
  · have hsplit : hh.text ++ ((tl.map (·.text)).flatten) =
        [c] ++ (body_of hh.text ++ ((tl.map (·.text)).flatten)) := by
      conv_lhs => rw [hb]
      simp
    rw [hsplit, rustTrim_append_of [c] _ (by simpa using glyph_is_ws hc) hbody hBne]
    exact hBne

theorem run_wordW_cons (hh : WTok) (tl : List WTok) :
    run_wordW (hh :: tl) =
      ⟨rustTrim (((hh :: tl).map (·.text)).flatten), hh.t0, lastT1 tl hh.t1,
       mean_opt ((hh :: tl).map (·.p))⟩ := by
  unfold run_wordW mean_opt
  have hstop : ((hh :: tl).getLast?).elim (0 : ℚ) (·.t1) = lastT1 tl hh.t1 := by
    rw [show lastT1 tl hh.t1 = lastT1 (hh :: tl) (0 : ℚ) from rfl, lastT1_eq]
  rw [hstop]
  have hprob : (if (hh :: tl).isEmpty then (none : Option ℚ)
      else some (((hh :: tl).map (·.p)).sum / ((hh :: tl).length : ℚ))) =
      (if ((hh :: tl).map (·.p)).isEmpty then (none : Option ℚ)
      else some (((hh :: tl).map (·.p)).sum / (((hh :: tl).map (·.p)).length : ℚ))) := by
    rw [List.length_map]
    rfl
  rw [hprob]
  rfl

/-! ## C2 machinery: the grouping fold -/

theorem fold_tail (ts : List WTok) : ∀ (st : GroupSt), st.started = true →
    (∀ t ∈ ts, starts_glyph t.text = false) →
    (ts.map pairB).foldl group_step st =
      ⟨st.words, st.cur ++ (ts.map (·.text)).flatten, st.ps ++ ts.map (·.p),
       st.w_start, lastT1 ts st.w_end, true⟩ := by
  induction ts with
  | nil =>
    intro st hst _
    obtain ⟨w, c, p, a, b, s⟩ := st
    simp only at hst
    subst hst
    simp [lastT1]
  | cons t ts' ih =>
    intro st hst hng
    rw [List.map_cons, List.foldl_cons]
    have hgl : starts_glyph t.text = false := hng t (List.mem_cons_self _ _)
    have hstep : group_step st (pairB t) =
        { st with w_end := t.t1, cur := st.cur ++ t.text, ps := st.ps ++ [t.p] } := by
      unfold group_step pairB
      simp [hgl, hst]
    rw [hstep]
    rw [ih { st with w_end := t.t1, cur := st.cur ++ t.text, ps := st.ps ++ [t.p] }
      hst (fun x hx => hng x (List.mem_cons_of_mem _ hx))]
    simp [lastT1, List.append_assoc]

theorem fold_runs (runs : List (List WTok)) : ∀ (st : GroupSt),
    st.started = true → rustTrim st.cur ≠ [] → st.ps ≠ [] →
    (∀ run ∈ runs, good_run run) → (∀ run ∈ runs, glyph_head run) →
    (if (((runs.flatten).map pairB).foldl group_step st).started = true
     then flushWords (((runs.flatten).map pairB).foldl group_step st)
     else (((runs.flatten).map pairB).foldl group_step st).words) =
      st.words ++
        ⟨rustTrim st.cur, st.w_start, st.w_end, mean_opt st.ps⟩ :: runs.map run_wordW := by
  induction runs with
  | nil =>
    intro st hst hcur _ _ _
    simp only [List.flatten_nil, List.map_nil, List.foldl_nil, hst, if_true]
    unfold flushWords
    rw [if_neg (by simpa using hcur)]
  | cons r rs ih =>
    intro st hst hcur hps hgood hglyph
    obtain ⟨hh, tl, hreq, hgl⟩ := hglyph r (List.mem_cons_self _ _)
    have hgr : good_run r := hgood r (List.mem_cons_self _ _)
    subst hreq
    rw [List.flatten_cons, List.map_append, List.foldl_append, List.map_cons,
      List.foldl_cons]
    have hstep : group_step st (pairB hh) =
        ⟨flushWords st, hh.text, [hh.p], hh.t0, hh.t1, true⟩ := by
      unfold group_step pairB
      simp [hgl, hst]
    rw [hstep]
    rw [fold_tail tl ⟨flushWords st, hh.text, [hh.p], hh.t0, hh.t1, true⟩ rfl
      (fun x hx => hgr.2.2 x (by simpa using hx))]
    dsimp only
    have hcur2 : rustTrim (hh.text ++ ((tl.map (·.text)).flatten)) ≠ [] := by
      have := run_trim (hh :: tl) hgr
      rwa [List.map_cons, List.flatten_cons] at this
    rw [ih ⟨flushWords st, hh.text ++ ((tl.map (·.text)).flatten),
        [hh.p] ++ tl.map (·.p), hh.t0, lastT1 tl hh.t1, true⟩
      rfl hcur2 (by simp) (fun x hx => hgood x (List.mem_cons_of_mem _ hx))
      (fun x hx => hglyph x (List.mem_cons_of_mem _ hx))]
    have hflush : flushWords st =
        st.words ++ [⟨rustTrim st.cur, st.w_start, st.w_end, mean_opt st.ps⟩] := by
      unfold flushWords
      rw [if_neg (by simpa using hcur)]
    rw [hflush, List.map_cons, run_wordW_cons]
    simp only [List.map_cons, List.flatten_cons, List.singleton_append, List.append_assoc]

theorem fold_runs_idle (runs : List (List WTok)) (st : GroupSt)
    (hst : st.started = false) (hcur : st.cur = []) (hps : st.ps = [])
    (hgood : ∀ run ∈ runs, good_run run)
    (hglyph : ∀ run ∈ runs.tail, glyph_head run) :
    (if (((runs.flatten).map pairB).foldl group_step st).started = true
     then flushWords (((runs.flatten).map pairB).foldl group_step st)
     else (((runs.flatten).map pairB).foldl group_step st).words) =
      st.words ++ runs.map run_wordW := by
  cases runs with
  | nil => simp [hst]
  | cons r rs =>
    obtain ⟨hh, tl, hreq⟩ := List.exists_cons_of_ne_nil (hgood r (List.mem_cons_self _ _)).1
    have hgr : good_run r := hgood r (List.mem_cons_self _ _)
    subst hreq
    rw [List.flatten_cons, List.map_append, List.foldl_append, List.map_cons,
      List.foldl_cons]
    have hstep : group_step st (pairB hh) =
        ⟨st.words, hh.text, [hh.p], hh.t0, hh.t1, true⟩ := by
      unfold group_step pairB
      simp [hst, hcur, hps]
    rw [hstep]
    rw [fold_tail tl ⟨st.words, hh.text, [hh.p], hh.t0, hh.t1, true⟩ rfl
      (fun x hx => hgr.2.2 x (by simpa using hx))]
    dsimp only
    have hcur2 : rustTrim (hh.text ++ ((tl.map (·.text)).flatten)) ≠ [] := by
      have := run_trim (hh :: tl) hgr
      rwa [List.map_cons, List.flatten_cons] at this
    rw [fold_runs rs ⟨st.words, hh.text ++ ((tl.map (·.text)).flatten),
        [hh.p] ++ tl.map (·.p), hh.t0, lastT1 tl hh.t1, true⟩
      rfl hcur2 (by simp) (fun x hx => hgood x (List.mem_cons_of_mem _ hx))
      (fun x hx => hglyph x (by simpa using hx))]
    rw [List.map_cons, run_wordW_cons]
    simp only [List.map_cons, List.flatten_cons, List.singleton_append]

/-! ## C2 -/

theorem wclean_to_w {r : RawToken} (h : ws_clean r = true) : wclean (to_w r) = true := by
  have hp := ws_clean_parts h
  unfold wclean
  rw [Bool.and_eq_true]
  have htext : (to_w r).text = r.text := rfl
  constructor
  · rw [htext]
    simpa using hp.2.2.1
  · rw [htext, List.all_eq_true]
    intro c hc
    simpa using (hp.2.2.2 c hc).1

/-- C2: on a nonempty, anchor-free, whitespace-clean token stream the
reconstructor produces exactly one word per whitespace-delimited run — the
trimmed concatenation of the run's text, bounded by the run's first token's
coarse start and last token's coarse end, with the mean of the run's token
probabilities. -/
theorem claim_C2 (raw : List RawToken) (hne : raw ≠ [])
    (hclean : ∀ r ∈ raw, ws_clean r = true) (hanch : ∀ r ∈ raw, r.t_dtw < 0) :
    get_word_timestamps raw = (runs_of raw).map run_word := by
  have hct : collect_toks raw = raw.map to_w := collect_toks_clean hclean
  have hanchW : ∀ t ∈ raw.map to_w, t.anchor = none := by
    intro t ht
    rw [List.mem_map] at ht
    obtain ⟨r, hr, hrt⟩ := ht
    subst hrt
    exact to_w_anchor_none (hanch r hr)
  have hwcleanW : ∀ t ∈ raw.map to_w, wclean t = true := by
    intro t ht
    rw [List.mem_map] at ht
    obtain ⟨r, hr, hrt⟩ := ht
    subst hrt
    exact wclean_to_w (hclean r hr)
  have hwb : with_bounds (raw.map to_w) = (raw.map to_w).map pairB :=
    with_bounds_no_anchor _ hanchW
  obtain ⟨r0, rr, hraw⟩ := List.exists_cons_of_ne_nil hne
  subst hraw
  have hwcleanW2 : ∀ t ∈ to_w r0 :: rr.map to_w, wclean t = true := by
    rw [← List.map_cons]
    exact hwcleanW
  have hkey := fold_runs_idle (runs_w (to_w r0 :: rr.map to_w))
    ⟨[], [], [], (pairB (to_w r0)).2.1, (pairB (to_w r0)).2.2, false⟩
    rfl rfl rfl (runs_w_good _ hwcleanW2) (runs_w_tail_glyph _)
  rw [runs_w_flatten, List.map_cons] at hkey
  dsimp only at hkey
  simp only [get_word_timestamps]
  rw [hct, hwb]
  rw [List.map_cons, List.map_cons]
  simp only [List.isEmpty_cons, Bool.false_eq_true, if_false]
  rw [hkey]
  rw [← List.map_cons to_w r0 rr, runs_w_map, List.map_map]
  have hcomp : run_wordW ∘ List.map to_w = run_word := funext run_wordW_map
  rw [hcomp, List.nil_append]

theorem claim_C2_witness :
    (c2raw ≠ [] ∧ (∀ r ∈ c2raw, ws_clean r = true) ∧ (∀ r ∈ c2raw, r.t_dtw < 0)) ∧
      get_word_timestamps c2raw = (runs_of c2raw).map run_word := by
  refine ⟨⟨by simp [c2raw], by with_unfolding_all decide, by with_unfolding_all decide⟩, ?_⟩
  exact claim_C2 c2raw (by simp [c2raw]) (by with_unfolding_all decide)
    (by with_unfolding_all decide)

end WhisperSpec
